import Mathlib

/-!
Verification development for the data utilities of `malpolon/data/utils.py`.

The Python functions are shallowly embedded as executable Lean definitions:

* machine floats appearing in the source (`val_ratio`, coordinates) are
  modelled as exact rationals `ℚ`; at every concrete input used in a theorem
  below the IEEE-double computation of the source and the rational
  computation agree (checked against CPython semantics, e.g.
  `25 * 0.1 == 2.5` exactly and `round(2.5) == 2`);
* Python's builtin `round` (also used by numpy scalars) is round-half-to-even,
  embedded as `roundHalfEven`;
* pandas `DataFrame.sample(n=k)` draws `k` distinct rows; it is embedded as an
  abstract sampler parameter constrained by `ValidSampler`;
* calls into the `shapely` library are embedded by their documented DE-9IM
  semantics specialised to axis-aligned rectangles (`contains` = the other
  geometry lies in the closure and the interiors intersect);
* `os.walk` is embedded as an enumeration of `(dirpath, filenames)` pairs.
-/

attribute [local semireducible] Rat.add Rat.mul Rat.inv Rat.sub Rat.ofScientific

/-- Python's builtin `round` on an exact rational value: round half to even
(banker's rounding), as used at line 241 of `utils.py`. -/
def roundHalfEven (q : ℚ) : ℤ :=
  if q - ⌊q⌋ < 1/2 then ⌊q⌋
  else if 1/2 < q - ⌊q⌋ then ⌊q⌋ + 1
  else if 2 ∣ ⌊q⌋ then ⌊q⌋ else ⌊q⌋ + 1

lemma roundHalfEven_nonneg {q : ℚ} (hq : 0 ≤ q) : 0 ≤ roundHalfEven q := by
  unfold roundHalfEven
  have h0 : (0:ℤ) ≤ ⌊q⌋ := by positivity
  split_ifs <;> omega

lemma roundHalfEven_le {q : ℚ} {c : ℤ} (h : q ≤ (c:ℚ)) : roundHalfEven q ≤ c := by
  have hfl : ⌊q⌋ ≤ c := by
    have := Int.floor_le_floor h
    simpa using this
  unfold roundHalfEven
  split_ifs with h1 h2 h3
  · exact hfl
  · -- the fractional part exceeds 1/2, so q is not an integer multiple
    have hq : (⌊q⌋:ℚ) < q := by
      have := Int.floor_le q
      by_contra hc
      push_neg at hc
      have : q = (⌊q⌋:ℚ) := le_antisymm hc this
      rw [this] at h2
      simp at h2
      norm_num at h2
    have : ⌊q⌋ < c := by
      by_contra hc
      push_neg at hc
      have hec : ⌊q⌋ = c := le_antisymm hfl hc
      rw [hec] at hq
      exact absurd (lt_of_lt_of_le hq h) (lt_irrefl _)
    omega
  · exact hfl
  · have hq : (⌊q⌋:ℚ) < q := by
      have hle := Int.floor_le q
      by_contra hc
      push_neg at hc
      have he : q = (⌊q⌋:ℚ) := le_antisymm hc hle
      rw [he] at h1
      simp at h1
    have : ⌊q⌋ < c := by
      by_contra hc
      push_neg at hc
      have hec : ⌊q⌋ = c := le_antisymm hfl hc
      rw [hec] at hq
      exact absurd (lt_of_lt_of_le hq h) (lt_irrefl _)
    omega

/-- The method selector of the geometry predicates in `utils.py`
(`method` argument, default `shapely`; the `torchgeo` branch is out of scope
of the claims). -/
inductive GeoMethod where
  | shapely
  | manual
deriving DecidableEq, Repr

/-- A 2D bounding box `[xmin, ymin, xmax, ymax]` (documented format of
`utils.py`). Coordinates are exact rationals. -/
structure BBox where
  xmin : ℚ
  ymin : ℚ
  xmax : ℚ
  ymax : ℚ
deriving DecidableEq, Repr

/-- The closed rectangle denoted by a bbox `[xmin, ymin, xmax, ymax]`; the set
of points covered by the shapely polygon built from its four corners (for the
documented format `xmin ≤ xmax`, `ymin ≤ ymax`). -/
def rectClosed (b : BBox) : Set (ℚ × ℚ) :=
  {p | b.xmin ≤ p.1 ∧ p.1 ≤ b.xmax ∧ b.ymin ≤ p.2 ∧ p.2 ≤ b.ymax}

/-- The interior of the rectangle denoted by a bbox: the open rectangle. -/
def rectOpen (b : BBox) : Set (ℚ × ℚ) :=
  {p | b.xmin < p.1 ∧ p.1 < b.xmax ∧ b.ymin < p.2 ∧ p.2 < b.ymax}

/-- Shapely `polygon2.contains(polygon1)` for two axis-aligned rectangle
polygons (DE-9IM semantics: every point of geometry 1 lies in the closure of
geometry 2, and the interiors intersect). -/
def shapelyRectContains (b1 b2 : BBox) : Prop :=
  rectClosed b1 ⊆ rectClosed b2 ∧ (rectOpen b1 ∩ rectOpen b2).Nonempty

/-- Shapely `polygon.contains(point)` for an axis-aligned rectangle polygon
(DE-9IM semantics: a point is contained iff it lies in the interior; boundary
points are not contained). -/
def shapelyRectContainsPoint (b : BBox) (p : ℚ × ℚ) : Prop :=
  p ∈ rectOpen b

/-- Embedding of `is_bbox_contained(bbox1, bbox2, method)` from
`utils.py` lines 52-65. The `manual` branch transcribes lines 53-56; the
`shapely` branch (the default) builds the two rectangle polygons of lines
58-61 and evaluates `polygon2.contains(polygon1)`, embedded for axis-aligned
rectangles in the documented format by the equivalent coordinate test
(closure containment plus non-degeneracy of the inner rectangle; the
equivalence with the set-level DE-9IM statement is proved in
`shapely_branch_correct` below). -/
def is_bbox_contained (bbox1 bbox2 : BBox) (method : GeoMethod) : Bool :=
  match method with
  | .manual =>
      decide (bbox1.xmin ≥ bbox2.xmin) && decide (bbox1.xmin ≤ bbox2.xmax)
      && decide (bbox1.xmax ≥ bbox2.xmin) && decide (bbox1.xmax ≤ bbox2.xmax)
      && decide (bbox1.ymin ≥ bbox2.ymin) && decide (bbox1.ymin ≤ bbox2.ymax)
      && decide (bbox1.ymax ≥ bbox2.ymin) && decide (bbox1.ymax ≤ bbox2.ymax)
  | .shapely =>
      decide (bbox2.xmin ≤ bbox1.xmin) && decide (bbox1.xmax ≤ bbox2.xmax)
      && decide (bbox2.ymin ≤ bbox1.ymin) && decide (bbox1.ymax ≤ bbox2.ymax)
      && decide (bbox1.xmin < bbox1.xmax) && decide (bbox1.ymin < bbox1.ymax)

/-- Embedding of `is_point_in_bbox(point, bbox, method)` from `utils.py`
lines 68-103. The `manual` branch transcribes lines 96-97 (non-strict
comparisons); the `shapely` branch (the default) is
`polygon2.contains(Point(point))`, i.e. membership in the open rectangle. -/
def is_point_in_bbox (point : ℚ × ℚ) (bbox : BBox) (method : GeoMethod) : Bool :=
  match method with
  | .manual =>
      decide (point.1 ≥ bbox.xmin) && decide (point.1 ≤ bbox.xmax)
      && decide (point.2 ≥ bbox.ymin) && decide (point.2 ≤ bbox.ymax)
  | .shapely =>
      decide (bbox.xmin < point.1) && decide (point.1 < bbox.xmax)
      && decide (bbox.ymin < point.2) && decide (point.2 < bbox.ymax)

/-- A bbox is well formed when it follows the documented format
`[xmin, ymin, xmax, ymax]` with `xmin ≤ xmax` and `ymin ≤ ymax`. -/
def BBox.wf (b : BBox) : Prop := b.xmin ≤ b.xmax ∧ b.ymin ≤ b.ymax

/-- A bbox is non-degenerate when its rectangle has positive width and
height (non-empty interior). -/
def BBox.nondeg (b : BBox) : Prop := b.xmin < b.xmax ∧ b.ymin < b.ymax

/-- The shapely branch of `is_bbox_contained` computes exactly the DE-9IM
`contains` relation of the two rectangles, for well-formed boxes. -/
lemma shapely_branch_correct {b1 b2 : BBox} (h1 : b1.wf) :
    is_bbox_contained b1 b2 .shapely = true ↔ shapelyRectContains b1 b2 := by
  obtain ⟨hx1, hy1⟩ := h1
  simp only [is_bbox_contained, Bool.and_eq_true, decide_eq_true_eq]
  constructor
  · rintro ⟨⟨⟨⟨⟨ha, hb⟩, hc⟩, hd⟩, he⟩, hf⟩
    constructor
    · rintro ⟨px, py⟩ ⟨p1, p2, p3, p4⟩
      exact ⟨le_trans ha p1, le_trans p2 hb, le_trans hc p3, le_trans p4 hd⟩
    · refine ⟨((b1.xmin + b1.xmax)/2, (b1.ymin + b1.ymax)/2), ⟨?_, ?_, ?_, ?_⟩, ?_, ?_, ?_, ?_⟩
      · linarith
      · linarith
      · linarith
      · linarith
      · linarith
      · linarith
      · linarith
      · linarith
  · rintro ⟨hsub, ⟨qx, qy⟩, ⟨i1, i2, i3, i4⟩, j1, j2, j3, j4⟩
    have c1 := hsub (show (b1.xmin, b1.ymin) ∈ rectClosed b1 from
      ⟨le_refl _, hx1, le_refl _, hy1⟩)
    have c2 := hsub (show (b1.xmax, b1.ymax) ∈ rectClosed b1 from
      ⟨hx1, le_refl _, hy1, le_refl _⟩)
    obtain ⟨d1, d2, d3, d4⟩ := c1
    obtain ⟨e1, e2, e3, e4⟩ := c2
    exact ⟨⟨⟨⟨⟨d1, e2⟩, d3⟩, e4⟩, lt_trans i1 i2⟩, lt_trans i3 i4⟩

/-- Embedding of `to_one_hot_encoding(labels_predict, labels_target)` from
`utils.py` lines 106-132: a zero vector of length `len(labels_target)` whose
entries at positions where `labels_target` is a member of `labels_predict`
(the `np.in1d` mask of line 131) are set to `1`. A single integer argument is
wrapped into a one-element list at line 128, so the embedding takes the list
form. Entries are `float32` values `0.0` or `1.0`, represented exactly. -/
def to_one_hot_encoding (labels_predict : List ℤ) (labels_target : List ℤ) : List ℚ :=
  labels_target.map (fun t => if t ∈ labels_predict then 1 else 0)

/-- Lines 156-157 of `utils.py`: one leading dot is stripped from each
extension name (`ext[1:] if ext[0] == '.' else ext`). -/
def stripDot (ext : List Char) : List Char :=
  if ext.head? = some '.' then ext.tail else ext

/-- Embedding of the test `re.search(rf"^.*({suffix})\.({ext_list})$", f)`
of line 162, for a suffix pattern given by its language `S` (a decidable set
of strings; a literal suffix string `s` has language `fun m => m = s`) and
literal, metacharacter-free extension names joined by the alternation
`ext_list`: the filename decomposes as `prelude ++ m ++ dot ++ e`
with `m` in the suffix language and `e` one of the extensions. The search is
over all split positions `i ≤ j` of the filename. -/
def fileMatches (S : List Char → Bool) (exts : List (List Char)) (f : List Char) : Bool :=
  (List.range (f.length + 1)).any fun i =>
    (List.range (f.length + 1)).any fun j =>
      decide (i ≤ j) && S ((f.drop i).take (j - i))
      && ((f.drop j).head? == some '.') && exts.contains (f.drop j).tail

/-- Embedding of `get_files_path_recursively(path, *args, suffix)` from
`utils.py` lines 135-163. The `os.walk(path)` enumeration is passed in as a
list of `(dirpath, filenames)` pairs; `os.path.join(dp, f)` concatenates with
a path separator. Extensions are first stripped of one leading dot
(lines 156-157), then each filename is kept iff the regular expression of
line 162 matches. -/
def get_files_path_recursively (walk : List (List Char × List (List Char)))
    (S : List Char → Bool) (args : List (List Char)) : List (List Char) :=
  (walk.map (fun e => (e.2.filter (fileMatches S (args.map stripDot))).map
    (fun f => e.1 ++ '/' :: f))).flatten

/-- Embedding of `os.walk(root)` over a filesystem modelled as a listing of
`(dirpath, filenames)` pairs: the walk yields the directories whose path lies
under `root`. A root that exists nowhere in the filesystem matches no
directory, and `os.walk` with its default `onerror=None` silently swallows
the `scandir` error, so the iteration is empty (Python library semantics). -/
def osWalk (fs : List (List Char × List (List Char))) (root : List Char) :
    List (List Char × List (List Char)) :=
  fs.filter (fun e => root.isPrefixOf e.1)

/-- The specification's matching predicate for one filename: its extension
(a dot-separated terminal segment) is in the extension set and the filename
before the extension ends in a word of the suffix language. -/
def specFileMatch (S : List Char → Bool) (exts : List (List Char)) (f : List Char) : Prop :=
  ∃ stem e, f = stem ++ '.' :: e ∧ e ∈ exts ∧ ∃ pre m, stem = pre ++ m ∧ S m = true

lemma fileMatches_iff (S : List Char → Bool) (exts : List (List Char)) (f : List Char) :
    fileMatches S exts f = true ↔
      ∃ s m e, f = s ++ m ++ '.' :: e ∧ S m = true ∧ e ∈ exts := by
  constructor
  · intro h
    simp only [fileMatches, List.any_eq_true, List.mem_range] at h
    obtain ⟨i, _, j, _, hcond⟩ := h
    simp only [Bool.and_eq_true, decide_eq_true_eq, beq_iff_eq] at hcond
    obtain ⟨⟨⟨hij, hS⟩, hdot⟩, hext⟩ := hcond
    refine ⟨f.take i, (f.drop i).take (j - i), (f.drop j).tail, ?_, hS, by simpa using hext⟩
    have htj : f.take i ++ (f.drop i).take (j - i) = f.take j := by
      have h2 := List.take_add f i (j - i)
      rw [show i + (j - i) = j from by omega] at h2
      exact h2.symm
    have hdj : '.' :: (f.drop j).tail = f.drop j :=
      List.cons_head?_tail (by simp [hdot])
    calc f = f.take j ++ f.drop j := (List.take_append_drop j f).symm
    _ = (f.take i ++ (f.drop i).take (j - i)) ++ f.drop j := by rw [htj]
    _ = f.take i ++ (f.drop i).take (j - i) ++ '.' :: (f.drop j).tail := by
          rw [hdj, List.append_assoc]
  · rintro ⟨s, m, e, hf, hS, he⟩
    simp only [fileMatches, List.any_eq_true, List.mem_range]
    have hlen : f.length = s.length + m.length + (e.length + 1) := by
      subst hf; simp [List.length_append]; omega
    refine ⟨s.length, by omega, s.length + m.length, by omega, ?_⟩
    simp only [Bool.and_eq_true, decide_eq_true_eq, beq_iff_eq]
    have hdrop1 : f.drop s.length = m ++ '.' :: e := by
      subst hf
      rw [List.append_assoc]
      exact List.drop_left s (m ++ '.' :: e)
    have hdrop2 : f.drop (s.length + m.length) = '.' :: e := by
      subst hf
      have hsh : s ++ m ++ '.' :: e = (s ++ m) ++ '.' :: e := by
        rw [List.append_assoc]
      rw [hsh]
      have hl : (s ++ m).length = s.length + m.length := by simp
      rw [← hl]
      exact List.drop_left (s ++ m) ('.' :: e)
    refine ⟨⟨⟨by omega, ?_⟩, by rw [hdrop2]; rfl⟩, ?_⟩
    · rw [hdrop1]
      have hms : s.length + m.length - s.length = m.length := by omega
      rw [hms, List.take_left]
      exact hS
    · rw [hdrop2]
      simpa using he

lemma fileMatches_iff_spec (S : List Char → Bool) (exts : List (List Char)) (f : List Char) :
    fileMatches S exts f = true ↔ specFileMatch S exts f := by
  rw [fileMatches_iff]
  constructor
  · rintro ⟨s, m, e, hf, hS, he⟩
    exact ⟨s ++ m, e, by rw [hf, List.append_assoc], he, s, m, rfl, hS⟩
  · rintro ⟨stem, e, hf, he, pre, m, hstem, hS⟩
    exact ⟨pre, m, e, by rw [hf, hstem, List.append_assoc], hS, he⟩

lemma stripDot_map_id {args : List (List Char)}
    (h : ∀ e ∈ args, e.head? ≠ some '.') : args.map stripDot = args := by
  induction args with
  | nil => rfl
  | cons a t ih =>
      simp only [List.map_cons]
      rw [ih (fun e he => h e (List.mem_cons_of_mem a he))]
      have ha : stripDot a = a := by
        simp [stripDot, h a (List.mem_cons_self a t)]
      rw [ha]

lemma mem_get_files (walk : List (List Char × List (List Char)))
    (S : List Char → Bool) (args : List (List Char)) (p : List Char) :
    p ∈ get_files_path_recursively walk S args ↔
      ∃ d ∈ walk, ∃ f ∈ d.2, fileMatches S (args.map stripDot) f = true
        ∧ p = d.1 ++ '/' :: f := by
  simp only [get_files_path_recursively, List.mem_flatten, List.mem_map]
  constructor
  · rintro ⟨l, ⟨d, hd, rfl⟩, hp⟩
    simp only [List.mem_map, List.mem_filter] at hp
    obtain ⟨f, ⟨hf, hm⟩, rfl⟩ := hp
    exact ⟨d, hd, f, hf, hm, rfl⟩
  · rintro ⟨d, hd, f, hf, hm, rfl⟩
    refine ⟨_, ⟨d, hd, rfl⟩, ?_⟩
    simp only [List.mem_map, List.mem_filter]
    exact ⟨f, ⟨hf, hm⟩, rfl⟩

/-- An occurrence record row of an observation csv read by
`split_obs_per_species_frequency`: its dataframe row index (the
`RangeIndex` produced by `read_csv`, used by `drop` at line 250), its
`speciesId` column, and the values of the remaining columns. The constant
`subset` tag column of lines 234 and 249 is represented by the position of a
record in the returned train/val pair rather than stored in the record. -/
structure Obs where
  idx : ℕ
  speciesId : ℕ
  row : List ℤ
deriving DecidableEq, Repr

/-- The rows of the input frame whose `speciesId` equals `s`
(`pa_train[pa_train['speciesId'] == sid]`, line 247). -/
def sliceOf (l : List Obs) (s : ℕ) : List Obs :=
  l.filter (fun o => decide (o.speciesId = s))

/-- Embedding of `np.unique(pa_train['speciesId'], return_counts=True)`
(line 235): the distinct species identifiers in ascending order, each with
its number of occurrences. -/
def uniqueCounts (l : List Obs) : List (ℕ × ℕ) :=
  ((l.map Obs.speciesId).dedup.insertionSort (· ≤ ·)).map
    (fun s => (s, (l.map Obs.speciesId).count s))

/-- Embedding of lines 236-238: sort the `(species, count)` pairs by count
ascending (`np.argsort`) and reverse, giving descending counts. -/
def sortDescByCount (u : List (ℕ × ℕ)) : List (ℕ × ℕ) :=
  (u.insertionSort (fun a b => a.2 ≤ b.2)).reverse

/-- Embedding of lines 239-241 (`n_cls_val`): each per-class count is
replaced in place by `round(count * val_ratio)`, Python rounding. -/
def nClsVal (l : List Obs) (valRatio : ℚ) : List (ℕ × ℤ) :=
  (sortDescByCount (uniqueCounts l)).map
    (fun p => (p.1, roundHalfEven ((p.2 : ℚ) * valRatio)))

/-- Embedding of line 243: `indivisible_sid_n_rows` sums the already-rounded
entries of `n_cls_val[1]` that are below `1 / val_ratio` (note: the rounded
validation counts, not the original occurrence counts). -/
def indivisibleRows (l : List Obs) (valRatio : ℚ) : ℤ :=
  (((nClsVal l valRatio).filter
    (fun p => decide ((p.2 : ℚ) < 1 / valRatio))).map Prod.snd).sum

/-- One iteration of the loop of lines 245-248: for a `(sid, n_sid)` pair
with `n_sid >= 1`, sample `n_sid` rows of that species; otherwise nothing. -/
def valPiece (l : List Obs) (sample : List Obs → ℕ → List Obs)
    (p : ℕ × ℤ) : List Obs :=
  if 1 ≤ p.2 then sample (sliceOf l p.1) p.2.toNat else []

/-- The `pa_val` accumulation of lines 244-248: starting from an empty frame,
concatenate the per-class samples. -/
def valSplit (l : List Obs) (pairs : List (ℕ × ℤ))
    (sample : List Obs → ℕ → List Obs) : List Obs :=
  pairs.foldl (fun acc p =>
    if 1 ≤ p.2 then acc ++ sample (sliceOf l p.1) p.2.toNat else acc) []

/-- The behaviour guaranteed by `DataFrame.sample(n=k)` with the default
`replace=False` (line 248): when `k` does not exceed the number of rows, the
result consists of `k` of the frame's rows, each taken at most once (a
sub-multiset of the rows). The concrete choice is random; the embedding
abstracts over it. -/
def ValidSampler (sample : List Obs → ℕ → List Obs) : Prop :=
  ∀ l n, n ≤ l.length → (sample l n).length = n ∧ (sample l n).Subperm l

/-- Embedding of `split_obs_per_species_frequency(input_path, output_name,
val_ratio)` from `utils.py` lines 217-256, as the input-output mapping on the
record table: returns the contents of the exported train-without-val csv
(line 251), of the val csv (line 252), and the reported
`indivisible_sid_n_rows` figure (lines 243 and 256). The train part drops
from the input every row whose index was sampled into val (line 250). -/
def split_obs_per_species_frequency (l : List Obs) (valRatio : ℚ)
    (sample : List Obs → ℕ → List Obs) : List Obs × List Obs × ℤ :=
  let paVal := valSplit l (nClsVal l valRatio) sample
  let paTrain := l.filter (fun o => !((paVal.map Obs.idx).contains o.idx))
  (paTrain, paVal, indivisibleRows l valRatio)

lemma valSplit_eq_flatten (l : List Obs) (pairs : List (ℕ × ℤ))
    (sample : List Obs → ℕ → List Obs) :
    valSplit l pairs sample = (pairs.map (valPiece l sample)).flatten := by
  suffices h : ∀ acc, pairs.foldl (fun acc p =>
      if 1 ≤ p.2 then acc ++ sample (sliceOf l p.1) p.2.toNat else acc) acc
      = acc ++ (pairs.map (valPiece l sample)).flatten by
    simpa [valSplit] using h []
  induction pairs with
  | nil => intro acc; simp
  | cons q qs ih =>
      intro acc
      simp only [List.foldl_cons, List.map_cons, List.flatten_cons]
      rw [ih]
      by_cases hq : 1 ≤ q.2
      · simp [valPiece, hq, List.append_assoc]
      · simp [valPiece, hq]

lemma sortDescByCount_perm (u : List (ℕ × ℕ)) : (sortDescByCount u).Perm u := by
  unfold sortDescByCount
  exact (List.reverse_perm _).trans (List.perm_insertionSort _ _)

lemma uniqueCounts_fst_perm (l : List Obs) :
    ((uniqueCounts l).map Prod.fst).Perm (l.map Obs.speciesId).dedup := by
  unfold uniqueCounts
  rw [List.map_map]
  have h1 : ((l.map Obs.speciesId).dedup.insertionSort (· ≤ ·)).map
      (Prod.fst ∘ fun s => (s, (l.map Obs.speciesId).count s))
      = (l.map Obs.speciesId).dedup.insertionSort (· ≤ ·) := by
    have h2 : (Prod.fst ∘ fun s => (s, (l.map Obs.speciesId).count s)) = id := rfl
    rw [h2, List.map_id]
  rw [h1]
  exact List.perm_insertionSort _ _

lemma nClsVal_fst_nodup (l : List Obs) (valRatio : ℚ) :
    ((nClsVal l valRatio).map Prod.fst).Nodup := by
  have hmap : ((nClsVal l valRatio).map Prod.fst).Perm
      ((uniqueCounts l).map Prod.fst) := by
    unfold nClsVal
    rw [List.map_map]
    exact (sortDescByCount_perm (uniqueCounts l)).map _
  have hd : ((uniqueCounts l).map Prod.fst).Nodup :=
    (uniqueCounts_fst_perm l).symm.nodup (List.nodup_dedup _)
  exact hmap.symm.nodup hd

lemma count_eq_slice_length (l : List Obs) (s : ℕ) :
    (l.map Obs.speciesId).count s = (sliceOf l s).length := by
  induction l with
  | nil => rfl
  | cons o t ih =>
      by_cases h : o.speciesId = s
      · simp [sliceOf, List.count_cons, h, List.filter_cons] at ih ⊢
        omega
      · simp [sliceOf, List.count_cons, h, List.filter_cons] at ih ⊢
        exact ih

lemma mem_nClsVal (l : List Obs) (valRatio : ℚ) {s : ℕ} {n : ℤ}
    (h : (s, n) ∈ nClsVal l valRatio) :
    n = roundHalfEven (((sliceOf l s).length : ℚ) * valRatio) := by
  unfold nClsVal at h
  obtain ⟨p, hp, hpe⟩ := List.mem_map.mp h
  have hfst : p.1 = s := congrArg Prod.fst hpe
  have hsnd : roundHalfEven ((p.2 : ℚ) * valRatio) = n := congrArg Prod.snd hpe
  have hpu : p ∈ uniqueCounts l := (sortDescByCount_perm _).mem_iff.mp hp
  unfold uniqueCounts at hpu
  obtain ⟨t, _, hte⟩ := List.mem_map.mp hpu
  have ht1 : t = p.1 := (congrArg Prod.fst hte).symm ▸ rfl
  have ht2 : (l.map Obs.speciesId).count t = p.2 :=
    congrArg Prod.snd hte
  subst hfst
  rw [← hsnd, ← ht2, ht1, count_eq_slice_length]

lemma nClsVal_complete (l : List Obs) (valRatio : ℚ) {s : ℕ}
    (h : s ∈ l.map Obs.speciesId) :
    (s, roundHalfEven (((sliceOf l s).length : ℚ) * valRatio))
      ∈ nClsVal l valRatio := by
  have hd : s ∈ (l.map Obs.speciesId).dedup := List.mem_dedup.mpr h
  have hm : s ∈ (l.map Obs.speciesId).dedup.insertionSort (· ≤ ·) :=
    (List.perm_insertionSort _ _).mem_iff.mpr hd
  have hu : (s, (l.map Obs.speciesId).count s) ∈ uniqueCounts l := by
    unfold uniqueCounts
    exact List.mem_map.mpr ⟨s, hm, rfl⟩
  have hs : (s, (l.map Obs.speciesId).count s) ∈ sortDescByCount (uniqueCounts l) :=
    (sortDescByCount_perm _).mem_iff.mpr hu
  unfold nClsVal
  refine List.mem_map.mpr ⟨(s, (l.map Obs.speciesId).count s), hs, ?_⟩
  rw [count_eq_slice_length]

lemma valPiece_n_le {l : List Obs} {valRatio : ℚ} {p : ℕ × ℤ}
    (hr1 : valRatio ≤ 1) (hmem : p ∈ nClsVal l valRatio) :
    p.2.toNat ≤ (sliceOf l p.1).length := by
  have hn : p.2 = roundHalfEven (((sliceOf l p.1).length : ℚ) * valRatio) :=
    mem_nClsVal l valRatio (show (p.1, p.2) ∈ nClsVal l valRatio from hmem)
  set c := (sliceOf l p.1).length with hc
  have hle : ((c : ℚ) * valRatio) ≤ ((c : ℤ) : ℚ) := by
    push_cast
    nlinarith [Nat.cast_nonneg (α := ℚ) c]
  have := roundHalfEven_le hle
  rw [← hn] at this
  omega

lemma valPiece_species {l : List Obs} {valRatio : ℚ} {p : ℕ × ℤ}
    {sample : List Obs → ℕ → List Obs} (hs : ValidSampler sample)
    (hr1 : valRatio ≤ 1) (hmem : p ∈ nClsVal l valRatio) :
    ∀ o ∈ valPiece l sample p, o.speciesId = p.1 := by
  intro o ho
  unfold valPiece at ho
  by_cases h1 : 1 ≤ p.2
  · simp only [h1, if_pos] at ho
    have hsub := (hs _ _ (valPiece_n_le hr1 hmem)).2
    have hmem2 : o ∈ sliceOf l p.1 := hsub.subset ho
    have hsp := List.mem_filter.mp hmem2
    simpa using hsp.2
  · simp [h1] at ho

lemma filter_flatten_pieces {l : List Obs} {sample : List Obs → ℕ → List Obs}
    {s : ℕ} {n : ℤ} (pairs : List (ℕ × ℤ))
    (hok : ∀ p ∈ pairs, ∀ o ∈ valPiece l sample p, o.speciesId = p.1)
    (hnd : (pairs.map Prod.fst).Nodup)
    (hmem : (s, n) ∈ pairs) :
    ((pairs.map (valPiece l sample)).flatten).filter
      (fun o => decide (o.speciesId = s)) = valPiece l sample (s, n) := by
  induction pairs with
  | nil => simp at hmem
  | cons q qs ih =>
      simp only [List.map_cons, List.flatten_cons, List.filter_append]
      simp only [List.map_cons, List.nodup_cons] at hnd
      rcases List.mem_cons.mp hmem with hq | hqs
      · subst hq
        have h1 : (valPiece l sample (s, n)).filter
            (fun o => decide (o.speciesId = s)) = valPiece l sample (s, n) := by
          rw [List.filter_eq_self]
          intro o ho
          simp [hok (s, n) (List.mem_cons_self _ _) o ho]
        have h2 : ((qs.map (valPiece l sample)).flatten).filter
            (fun o => decide (o.speciesId = s)) = [] := by
          rw [List.filter_eq_nil_iff]
          intro o ho
          obtain ⟨piece, hpiece, hop⟩ := List.mem_flatten.mp ho
          obtain ⟨p, hpq, rfl⟩ := List.mem_map.mp hpiece
          have hps := hok p (List.mem_cons_of_mem _ hpq) o hop
          have hne : p.1 ≠ s := by
            intro hcontra
            exact hnd.1 (hcontra ▸ List.mem_map.mpr ⟨p, hpq, rfl⟩)
          simp [hps, hne]
        rw [h1, h2, List.append_nil]
      · have hqe : (valPiece l sample q).filter
            (fun o => decide (o.speciesId = s)) = [] := by
          rw [List.filter_eq_nil_iff]
          intro o ho
          have hqs2 := hok q (List.mem_cons_self _ _) o ho
          have hsq : s ∈ qs.map Prod.fst := List.mem_map.mpr ⟨(s, n), hqs, rfl⟩
          have hne : q.1 ≠ s := fun hcontra => hnd.1 (hcontra ▸ hsq)
          simp [hqs2, hne]
        rw [hqe, List.nil_append]
        exact ih (fun p hp => hok p (List.mem_cons_of_mem _ hp)) hnd.2 hqs

lemma filter_valSplit_eq {l : List Obs} {valRatio : ℚ} {s : ℕ} {n : ℤ}
    {sample : List Obs → ℕ → List Obs} (hs : ValidSampler sample)
    (hr1 : valRatio ≤ 1)
    (hmem : (s, n) ∈ nClsVal l valRatio) :
    (valSplit l (nClsVal l valRatio) sample).filter
        (fun o => decide (o.speciesId = s))
      = valPiece l sample (s, n) := by
  rw [valSplit_eq_flatten]
  exact filter_flatten_pieces (nClsVal l valRatio)
    (fun p hp => valPiece_species hs hr1 hp)
    (nClsVal_fst_nodup l valRatio) hmem

lemma filter_valSplit_nil {l : List Obs} {valRatio : ℚ} {s : ℕ}
    {sample : List Obs → ℕ → List Obs} (hs : ValidSampler sample)
    (hr1 : valRatio ≤ 1)
    (h : ∀ n : ℤ, (s, n) ∈ nClsVal l valRatio → ¬ 1 ≤ n) :
    (valSplit l (nClsVal l valRatio) sample).filter
        (fun o => decide (o.speciesId = s)) = [] := by
  rw [valSplit_eq_flatten, List.filter_eq_nil_iff]
  intro o ho
  obtain ⟨piece, hpiece, hop⟩ := List.mem_flatten.mp ho
  obtain ⟨p, hpq, rfl⟩ := List.mem_map.mp hpiece
  have hsp := valPiece_species hs hr1 hpq o hop
  by_cases hps : p.1 = s
  · have hn1 := h p.2 (by rw [← hps]; exact hpq)
    unfold valPiece at hop
    simp [hn1] at hop
  · simp [hsp, hps]

lemma slice_sub_filter {l : List Obs} {a b : ℕ} (hne : b ≠ a) :
    sliceOf (l.filter (fun o => !decide (o.speciesId = a))) b = sliceOf l b := by
  unfold sliceOf
  rw [List.filter_filter]
  apply List.filter_congr
  intro o _
  by_cases h : o.speciesId = b
  · simp [h, hne]
  · simp [h]

lemma flatten_pieces_subperm (g : ℕ × ℤ → List Obs) :
    ∀ (pairs : List (ℕ × ℤ)) (l : List Obs),
    (pairs.map Prod.fst).Nodup →
    (∀ p ∈ pairs, (g p).Subperm (sliceOf l p.1)) →
    ((pairs.map g).flatten).Subperm l := by
  intro pairs
  induction pairs with
  | nil =>
      intro l _ _
      simp only [List.map_nil, List.flatten_nil]
      exact List.nil_subperm
  | cons q qs ih =>
      intro l hnd hle
      simp only [List.map_cons, List.flatten_cons]
      simp only [List.map_cons, List.nodup_cons] at hnd
      have hperm : (sliceOf l q.1
          ++ l.filter (fun o => !decide (o.speciesId = q.1))).Perm l :=
        List.filter_append_perm _ l
      have h1 : (g q).Subperm (sliceOf l q.1) := hle q (List.mem_cons_self _ _)
      have h2 : ((qs.map g).flatten).Subperm
          (l.filter (fun o => !decide (o.speciesId = q.1))) := by
        apply ih _ hnd.2
        intro p hp
        have hne : p.1 ≠ q.1 := by
          intro hc
          exact hnd.1 (hc ▸ List.mem_map.mpr ⟨p, hp, rfl⟩)
        rw [slice_sub_filter hne]
        exact hle p (List.mem_cons_of_mem _ hp)
      rw [← Multiset.coe_le] at h1 h2 ⊢
      calc (↑(g q ++ (qs.map g).flatten) : Multiset Obs)
          = ↑(g q) + ↑((qs.map g).flatten) := (Multiset.coe_add _ _).symm
        _ ≤ ↑(sliceOf l q.1)
            + ↑(l.filter (fun o => !decide (o.speciesId = q.1))) :=
            add_le_add h1 h2
        _ = ↑(sliceOf l q.1
            ++ l.filter (fun o => !decide (o.speciesId = q.1))) :=
            Multiset.coe_add _ _
        _ = ↑l := Multiset.coe_eq_coe.mpr hperm

lemma drop_filter_perm (l v : List Obs) (hnd : (l.map Obs.idx).Nodup)
    (hv : v.Subperm l) :
    (l.filter (fun o => !((v.map Obs.idx).contains o.idx)) ++ v).Perm l := by
  have hlnd : l.Nodup := List.Nodup.of_map _ hnd
  have hvnd : v.Nodup := by
    obtain ⟨w, hw, hsub⟩ := hv
    exact hw.nodup (hsub.nodup hlnd)
  have hveq : v.Perm (l.filter (fun o => (v.map Obs.idx).contains o.idx)) := by
    rw [List.perm_ext_iff_of_nodup hvnd (List.Nodup.filter _ hlnd)]
    intro o
    constructor
    · intro hov
      refine List.mem_filter.mpr ⟨hv.subset hov, ?_⟩
      simp only [List.contains_eq_any_beq, List.any_eq_true]
      exact ⟨o.idx, List.mem_map.mpr ⟨o, hov, rfl⟩, by simp⟩
    · intro hof
      obtain ⟨hol, hc⟩ := List.mem_filter.mp hof
      have hidx : o.idx ∈ v.map Obs.idx := by
        simp only [List.contains_eq_any_beq, List.any_eq_true] at hc
        obtain ⟨y, hy1, hy2⟩ := hc
        have hyy : o.idx = y := by simpa using hy2
        rwa [hyy]
      obtain ⟨y, hyv, hy⟩ := List.mem_map.mp hidx
      have hyl : y ∈ l := hv.subset hyv
      have hyo : y = o := List.inj_on_of_nodup_map hnd hyl hol hy
      rwa [← hyo]
  have step1 := List.Perm.append_left
    (l.filter (fun o => !((v.map Obs.idx).contains o.idx))) hveq
  have step2 : (l.filter (fun o => !((v.map Obs.idx).contains o.idx))
      ++ l.filter (fun o => (v.map Obs.idx).contains o.idx)).Perm
      (l.filter (fun o => (v.map Obs.idx).contains o.idx)
      ++ l.filter (fun o => !((v.map Obs.idx).contains o.idx))) :=
    List.perm_append_comm
  exact step1.trans (step2.trans (List.filter_append_perm _ l))

lemma valSplit_subperm (l : List Obs) (valRatio : ℚ)
    (sample : List Obs → ℕ → List Obs) (hs : ValidSampler sample)
    (hr1 : valRatio ≤ 1) :
    (valSplit l (nClsVal l valRatio) sample).Subperm l := by
  rw [valSplit_eq_flatten]
  apply flatten_pieces_subperm _ _ l (nClsVal_fst_nodup l valRatio)
  intro p hp
  unfold valPiece
  by_cases h1 : 1 ≤ p.2
  · simp only [h1, if_pos]
    exact (hs _ _ (valPiece_n_le hr1 hp)).2
  · simp only [h1, if_neg, not_false_iff]
    exact List.nil_subperm

/-- A column of the observation csv as read by `read_csv` in
`split_obs_spatially`: its name and its cell values in row order. Cell
values are exact rationals. -/
abbrev Column := String × List ℚ

/-- A parsed observation record: the value of the `lon` column, the value of
the `lat` column, and the remaining columns as name-value pairs in column
order. Two records are the same when they associate the same values to the
same column names. -/
structure Row where
  lon : ℚ
  lat : ℚ
  rest : List (String × ℚ)
deriving DecidableEq, Repr

/-- The test `col in ['lon', 'lat']` of line 189. -/
def isCoordName (s : String) : Bool := s == "lon" || s == "lat"

/-- The `coords` dictionary of lines 187-190: the coordinate columns in the
order they appear in the input file. -/
def coordCols (cols : List Column) : List Column :=
  cols.filter (fun c => isCoordName c.1)

/-- The `data` dictionary of lines 187-192: the non-coordinate columns in
input order. -/
def dataCols (cols : List Column) : List Column :=
  cols.filter (fun c => !isCoordName c.1)

/-- The values of the first column with the given name (empty when the
column is absent). -/
def colLookup (cols : List Column) (name : String) : List ℚ :=
  ((cols.find? (fun c => c.1 == name)).getD (name, [])).2

/-- The number of records of a column table, read off the `lon` column. -/
def numRows (cols : List Column) : ℕ := (colLookup cols "lon").length

/-- The parsed record at row `i` of a column table. -/
def rowAt (cols : List Column) (i : ℕ) : Row :=
  ⟨(colLookup cols "lon").getD i 0, (colLookup cols "lat").getD i 0,
    (dataCols cols).map (fun c => (c.1, c.2.getD i 0))⟩

/-- All parsed records of a column table, in row order. -/
def rowsOfCols (cols : List Column) : List Row :=
  (List.range (numRows cols)).map (rowAt cols)

/-- Modelled from the spec: the spatial binning of
`verde.train_test_split` (section 4.4 of the specification), whose code is
the external `verde` library and is not part of this repository. Each record
is assigned to the spatial bin obtained by flooring its two coordinates to
multiples of `spacing`. -/
def binsOf (c1 c2 : List ℚ) (spacing : ℚ) : List (ℤ × ℤ) :=
  List.zipWith (fun a b => (⌊a / spacing⌋, ⌊b / spacing⌋)) c1 c2

/-- Modelled from the spec: the greedy bin selection of section 4.4 — bins
are drawn (here in first-occurrence order, standing for the fixed random
seed) until the selected bins hold at least `target` records. -/
def greedyPickBins (bins : List (ℤ × ℤ)) (target : ℚ) : List (ℤ × ℤ) :=
  (bins.dedup.foldl
    (fun st b =>
      if (st.1 : ℚ) < target then (st.1 + bins.count b, b :: st.2) else st)
    ((0 : ℕ), ([] : List (ℤ × ℤ)))).2

/-- Modelled from the spec: `verde.train_test_split` (line 193), as the
row-index partition it induces — entire bins are assigned to validation
until the target fraction of records is reached; all other rows are train.
The two coordinate arrays are taken in the order they were passed. -/
def spatial_tts (c1 c2 : List ℚ) (spacing valSize : ℚ) : List ℕ × List ℕ :=
  ((List.range c1.length).filter (fun i =>
      !decide ((binsOf c1 c2 spacing).getD i (0, 0)
        ∈ greedyPickBins (binsOf c1 c2 spacing) (valSize * c1.length))),
   (List.range c1.length).filter (fun i =>
      decide ((binsOf c1 c2 spacing).getD i (0, 0)
        ∈ greedyPickBins (binsOf c1 c2 spacing) (valSize * c1.length))))

/-- One output frame of `split_obs_spatially` with its constant `subset`
tag column (lines 196-202): the `lon` column is rebuilt from the first
coordinate array passed to the splitter and `lat` from the second
(lines 196-197), then the data columns are appended in input order
(lines 200-202). -/
structure SplitFrame where
  cols : List Column
  subset : String
deriving DecidableEq, Repr

/-- The frame assembly of lines 196-202 for one subset: `lon` takes the
restriction of the first coordinate array to the subset's rows, `lat` the
restriction of the second. -/
def mkFrame (cols : List Column) (idxs : List ℕ) (tag : String) : SplitFrame :=
  SplitFrame.mk
    (("lon", idxs.map (fun i => ((coordCols cols).getD 0 ("", [])).2.getD i 0))
      :: ("lat", idxs.map (fun i => ((coordCols cols).getD 1 ("", [])).2.getD i 0))
      :: (dataCols cols).map (fun d => (d.1, idxs.map (fun i => d.2.getD i 0))))
    tag

/-- Embedding of `split_obs_spatially(input_path, spacing, plot, val_size)`
from `utils.py` lines 166-214, as the mapping from the input column table to
the `(train, val)` output frames (the function also writes their
concatenation; record-level claims are stated over `frameRows` of the two
frames). The coordinate columns are collected in input-file order
(lines 187-192) and passed to the splitter in that order (line 193). -/
def split_obs_spatially (cols : List Column) (spacing valSize : ℚ) :
    SplitFrame × SplitFrame :=
  let c1 := ((coordCols cols).getD 0 ("", [])).2
  let c2 := ((coordCols cols).getD 1 ("", [])).2
  let tv := spatial_tts c1 c2 spacing valSize
  (mkFrame cols tv.1 "train", mkFrame cols tv.2 "val")

/-- The parsed records of an output frame (the `subset` tag column is not
part of the record values). -/
def frameRows (f : SplitFrame) : List Row := rowsOfCols f.cols

lemma colLookup_coord {cols : List Column} {name : String}
    (h : isCoordName name = true) :
    colLookup cols name = colLookup (coordCols cols) name := by
  induction cols with
  | nil => rfl
  | cons c t ih =>
      unfold colLookup coordCols at ih ⊢
      rw [List.filter_cons]
      by_cases hc : isCoordName c.1 = true
      · simp only [hc, if_true]
        rw [List.find?_cons, List.find?_cons]
        cases hn : (c.1 == name) with
        | true => rfl
        | false => exact ih
      · have hc2 : isCoordName c.1 = false := by
          cases hcc : isCoordName c.1
          · rfl
          · exact absurd hcc hc
        simp only [hc2, Bool.false_eq_true, if_false]
        rw [List.find?_cons]
        cases hn : (c.1 == name) with
        | true =>
            exfalso
            have hce : c.1 = name := by simpa using hn
            rw [hce, h] at hc2
            simp at hc2
        | false => exact ih

lemma colLookup_lon {cols : List Column} {L A : List ℚ}
    (h : coordCols cols = [("lon", L), ("lat", A)]) :
    colLookup cols "lon" = L := by
  rw [colLookup_coord (by decide), h]
  rfl

lemma colLookup_lat {cols : List Column} {L A : List ℚ}
    (h : coordCols cols = [("lon", L), ("lat", A)]) :
    colLookup cols "lat" = A := by
  rw [colLookup_coord (by decide), h]
  rfl

lemma getD_map_lt {α β : Type} {g : α → β} {l : List α} {i : ℕ} (d : β) (d0 : α)
    (h : i < l.length) :
    (l.map g).getD i d = g (l.getD i d0) := by
  rw [List.getD_eq_getElem?_getD, List.getElem?_map,
    List.getD_eq_getElem?_getD, List.getElem?_eq_getElem h]
  simp

lemma dataCols_mkFrame (cols : List Column) (idxs : List ℕ) (tag : String) :
    dataCols (mkFrame cols idxs tag).cols
      = (dataCols cols).map (fun d => (d.1, idxs.map (fun i => d.2.getD i 0))) := by
  unfold mkFrame dataCols
  rw [List.filter_cons, List.filter_cons]
  simp only [show (!isCoordName ("lon", ([] : List ℚ)).1) = false from rfl,
    show (!isCoordName ("lat", ([] : List ℚ)).1) = false from rfl,
    Bool.false_eq_true, if_false]
  rw [List.filter_map]
  have hself : List.filter
      ((fun c => !isCoordName c.1)
        ∘ (fun d => (d.1, idxs.map (fun i => d.2.getD i 0))))
      (List.filter (fun c => !isCoordName c.1) cols)
      = List.filter (fun c => !isCoordName c.1) cols := by
    rw [List.filter_eq_self]
    intro a ha
    have hmem := (List.mem_filter.mp ha).2
    simpa using hmem
  rw [hself]

lemma frameRows_mkFrame {cols : List Column} {L A : List ℚ}
    (hcoord : coordCols cols = [("lon", L), ("lat", A)])
    (idxs : List ℕ) (tag : String) :
    frameRows (mkFrame cols idxs tag) = idxs.map (rowAt cols) := by
  have hlonF : colLookup (mkFrame cols idxs tag).cols "lon"
      = idxs.map (fun i => L.getD i 0) := by
    unfold mkFrame colLookup
    rw [hcoord]
    rfl
  have hlatF : colLookup (mkFrame cols idxs tag).cols "lat"
      = idxs.map (fun i => A.getD i 0) := by
    unfold mkFrame colLookup
    rw [hcoord]
    rfl
  unfold frameRows rowsOfCols
  have hnum : numRows (mkFrame cols idxs tag).cols = idxs.length := by
    unfold numRows
    rw [hlonF, List.length_map]
  rw [hnum]
  apply List.ext_getElem
  · simp
  · intro i h1 h2
    simp only [List.getElem_map, List.getElem_range]
    have hi : i < idxs.length := by simpa using h2
    have hidx : idxs[i] = idxs.getD i 0 := by
      rw [List.getD_eq_getElem?_getD, List.getElem?_eq_getElem hi]
      rfl
    rw [hidx]
    unfold rowAt
    rw [hlonF, hlatF, dataCols_mkFrame, colLookup_lon hcoord, colLookup_lat hcoord]
    congr 1
    · exact getD_map_lt 0 0 hi
    · exact getD_map_lt 0 0 hi
    · rw [List.map_map]
      apply List.map_congr_left
      intro d _
      simp only [Function.comp_apply]
      rw [getD_map_lt 0 0 hi]

lemma spatial_split_partition {cols : List Column} {L A : List ℚ}
    (hcoord : coordCols cols = [("lon", L), ("lat", A)])
    (spacing valSize : ℚ) :
    (frameRows (split_obs_spatially cols spacing valSize).1
      ++ frameRows (split_obs_spatially cols spacing valSize).2).Perm
      (rowsOfCols cols) := by
  have hc1 : ((coordCols cols).getD 0 ("", [])).2 = L := by rw [hcoord]; rfl
  have hc2 : ((coordCols cols).getD 1 ("", [])).2 = A := by rw [hcoord]; rfl
  unfold split_obs_spatially
  simp only
  rw [frameRows_mkFrame hcoord, frameRows_mkFrame hcoord, ← List.map_append]
  unfold rowsOfCols numRows
  rw [colLookup_lon hcoord]
  apply List.Perm.map
  unfold spatial_tts
  simp only [hc1]
  exact List.perm_append_comm.trans (List.filter_append_perm _ _)

lemma binsOf_getD {L A : List ℚ} {sp : ℚ} {i : ℕ}
    (hiL : i < L.length) (hiA : i < A.length) :
    (binsOf L A sp).getD i (0, 0)
      = (⌊L.getD i 0 / sp⌋, ⌊A.getD i 0 / sp⌋) := by
  unfold binsOf
  rw [List.getD_eq_getElem?_getD, List.getElem?_zipWith,
    List.getElem?_eq_getElem hiL, List.getElem?_eq_getElem hiA]
  simp only [Option.getD_some]
  rw [List.getD_eq_getElem?_getD, List.getElem?_eq_getElem hiL,
    List.getD_eq_getElem?_getD, List.getElem?_eq_getElem hiA]
  rfl

lemma spatial_split_disjoint {cols : List Column} {L A : List ℚ}
    (hcoord : coordCols cols = [("lon", L), ("lat", A)])
    (hlen : A.length = L.length) (spacing valSize : ℚ) :
    ∀ r ∈ frameRows (split_obs_spatially cols spacing valSize).1,
      r ∉ frameRows (split_obs_spatially cols spacing valSize).2 := by
  have hc1 : ((coordCols cols).getD 0 ("", [])).2 = L := by rw [hcoord]; rfl
  have hc2 : ((coordCols cols).getD 1 ("", [])).2 = A := by rw [hcoord]; rfl
  unfold split_obs_spatially
  simp only
  rw [frameRows_mkFrame hcoord, frameRows_mkFrame hcoord]
  unfold spatial_tts
  simp only [hc1, hc2]
  intro r hr hrv
  obtain ⟨i, hiT, hir⟩ := List.mem_map.mp hr
  obtain ⟨j, hjV, hjr⟩ := List.mem_map.mp hrv
  obtain ⟨hiR, hiC⟩ := List.mem_filter.mp hiT
  obtain ⟨hjR, hjC⟩ := List.mem_filter.mp hjV
  have hiN : i < L.length := List.mem_range.mp hiR
  have hjN : j < L.length := List.mem_range.mp hjR
  have hiA : i < A.length := by omega
  have hjA : j < A.length := by omega
  have hnotin : (binsOf L A spacing).getD i (0, 0)
      ∉ greedyPickBins (binsOf L A spacing) (valSize * L.length) := by
    simpa using hiC
  have hin : (binsOf L A spacing).getD j (0, 0)
      ∈ greedyPickBins (binsOf L A spacing) (valSize * L.length) := by
    simpa using hjC
  have heq : rowAt cols i = rowAt cols j := by rw [hir, hjr]
  have hlon : L.getD i 0 = L.getD j 0 := by
    have := congrArg Row.lon heq
    unfold rowAt at this
    rwa [colLookup_lon hcoord] at this
  have hlat : A.getD i 0 = A.getD j 0 := by
    have := congrArg Row.lat heq
    unfold rowAt at this
    rwa [colLookup_lat hcoord] at this
  have hbin : (binsOf L A spacing).getD i (0, 0)
      = (binsOf L A spacing).getD j (0, 0) := by
    rw [binsOf_getD hiN hiA, binsOf_getD hjN hjA, hlon, hlat]
  rw [hbin] at hnotin
  exact hnotin hin

/-- A 2D point lies on the boundary of a box: it touches at least one of the
four bounds while lying within all of them. -/
def onBoundary (p : ℚ × ℚ) (b : BBox) : Prop :=
  (p.1 = b.xmin ∨ p.1 = b.xmax ∨ p.2 = b.ymin ∨ p.2 = b.ymax)
  ∧ b.xmin ≤ p.1 ∧ p.1 ≤ b.xmax ∧ b.ymin ≤ p.2 ∧ p.2 ≤ b.ymax

/-- Every corner of box 1 lies within box 2's bounds, inclusively. -/
def cornersWithin (b1 b2 : BBox) : Prop :=
  (b1.xmin, b1.ymin) ∈ rectClosed b2 ∧ (b1.xmin, b1.ymax) ∈ rectClosed b2
  ∧ (b1.xmax, b1.ymax) ∈ rectClosed b2 ∧ (b1.xmax, b1.ymin) ∈ rectClosed b2

/-- A table of 25 observation rows, all of species 7. -/
def l25 : List Obs := (List.range 25).map (fun i => Obs.mk i 7 [])

/-- A table of 7 observation rows, all of species 3. -/
def l7 : List Obs := (List.range 7).map (fun i => Obs.mk i 3 [])

/-- A table of 5 observation rows, all of species 4. -/
def l5 : List Obs := (List.range 5).map (fun i => Obs.mk i 4 [])

/-- A table with two species: species 1 with two rows, species 2 with one. -/
def demoObs : List Obs := [Obs.mk 0 1 [], Obs.mk 1 1 [], Obs.mk 2 2 []]

/-- A concrete deterministic sampler: take the first `n` rows of the slice.
It satisfies the `ValidSampler` contract of `DataFrame.sample`. -/
def takeSampler : List Obs → ℕ → List Obs := fun l n => l.take n

/-- An observation csv whose `lat` column precedes its `lon` column: one
record with `lat = 2`, `lon = 1` and one extra column `sp = 7`. -/
def latFirstCols : List Column := [("lat", [2]), ("lon", [1]), ("sp", [7])]

/-- An observation csv in the documented column order (`lon` before `lat`):
two records far enough apart to land in different spatial bins. -/
def demoCols : List Column := [("lon", [0, 1]), ("lat", [0, 5]), ("sp", [1, 2])]

/-- A directory walk over a tree holding `root/a.csv`, `root/b.txt` and
`root/sub/c.csv`. -/
def demoWalk : List (List Char × List (List Char)) :=
  [(String.toList "root", [String.toList "a.csv", String.toList "b.txt"]),
   (String.toList "root/sub", [String.toList "c.csv"])]

/-- The language of the default suffix pattern of
`get_files_path_recursively` (the empty pattern matches only the empty
string at its position). -/
def emptySuffix : List Char → Bool := fun m => m.isEmpty

lemma takeSampler_valid : ValidSampler takeSampler := by
  intro l n h
  exact ⟨List.length_take_of_le h, (List.take_sublist n l).subperm⟩

lemma map_snd_filter_map (u : List (ℕ × ℕ)) (r : ℚ) :
    (((u.map (fun p => (p.1, roundHalfEven ((p.2 : ℚ) * r)))).filter
        (fun q => decide ((q.2 : ℚ) < 1 / r))).map Prod.snd)
      = ((u.map (fun p => roundHalfEven ((p.2 : ℚ) * r))).filter
        (fun (n : ℤ) => decide ((n : ℚ) < 1 / r))) := by
  induction u with
  | nil => rfl
  | cons x t ih =>
      simp only [List.map_cons, List.filter_cons, decide_eq_true_eq]
      by_cases hc : ((roundHalfEven ((x.2 : ℚ) * r) : ℚ) < 1 / r)
      · rw [if_pos hc, if_pos hc, List.map_cons, ih]
      · rw [if_neg hc, if_neg hc, ih]

lemma point_shapely_branch (p : ℚ × ℚ) (b : BBox) :
    is_point_in_bbox p b .shapely = true ↔ shapelyRectContainsPoint b p := by
  simp only [is_point_in_bbox, Bool.and_eq_true, decide_eq_true_eq,
    shapelyRectContainsPoint, rectOpen, Set.mem_setOf_eq]
  tauto

/-- C1 (corrected): for the frequency split, and for the spatial split on
inputs whose coordinate columns appear in the documented order (`lon` before
`lat`), the produced train and val record sets form an exact partition of
the input records: their concatenation is a permutation of the input and no
record lies in both. (As frozen, the claim fails for spatial inputs whose
`lat` column precedes `lon`, where the code swaps the coordinate values —
see the counterexample and C9.) -/
theorem C1_split_partition :
    (∀ (cols : List Column) (L A : List ℚ) (spacing valSize : ℚ),
      coordCols cols = [("lon", L), ("lat", A)] → A.length = L.length →
      (frameRows (split_obs_spatially cols spacing valSize).1
        ++ frameRows (split_obs_spatially cols spacing valSize).2).Perm
        (rowsOfCols cols)
      ∧ ∀ r ∈ frameRows (split_obs_spatially cols spacing valSize).1,
          r ∉ frameRows (split_obs_spatially cols spacing valSize).2)
    ∧ (∀ (l : List Obs) (valRatio : ℚ) (sample : List Obs → ℕ → List Obs),
      ValidSampler sample → valRatio ≤ 1 → (l.map Obs.idx).Nodup →
      ((split_obs_per_species_frequency l valRatio sample).1
        ++ (split_obs_per_species_frequency l valRatio sample).2.1).Perm l
      ∧ ∀ o ∈ (split_obs_per_species_frequency l valRatio sample).1,
          o ∉ (split_obs_per_species_frequency l valRatio sample).2.1) := by
  constructor
  · intro cols L A spacing valSize hcoord hlen
    exact ⟨spatial_split_partition hcoord spacing valSize,
      spatial_split_disjoint hcoord hlen spacing valSize⟩
  · intro l valRatio sample hs hr1 hnd
    have htr : (split_obs_per_species_frequency l valRatio sample).1
        = l.filter (fun o =>
            !(((valSplit l (nClsVal l valRatio) sample).map Obs.idx).contains o.idx)) :=
      rfl
    have hvl : (split_obs_per_species_frequency l valRatio sample).2.1
        = valSplit l (nClsVal l valRatio) sample := rfl
    constructor
    · rw [htr, hvl]
      exact drop_filter_perm l _ hnd (valSplit_subperm l valRatio sample hs hr1)
    · intro o ho hov
      rw [htr] at ho
      rw [hvl] at hov
      have hcont := (List.mem_filter.mp ho).2
      have hc1 : ((valSplit l (nClsVal l valRatio) sample).map Obs.idx).contains
          o.idx = true := by
        simp only [List.contains_eq_any_beq, List.any_eq_true]
        exact ⟨o.idx, List.mem_map.mpr ⟨o, hov, rfl⟩, by simp⟩
      rw [hc1] at hcont
      simp at hcont

/-- Witness for C1 at concrete inputs: a two-record table in documented
column order for the spatial split, and a three-record two-species table
with the take-first sampler for the frequency split. -/
theorem C1_split_partition_witness :
    ((frameRows (split_obs_spatially demoCols (1/6) (15/100)).1
        ++ frameRows (split_obs_spatially demoCols (1/6) (15/100)).2).Perm
        (rowsOfCols demoCols)
      ∧ ∀ r ∈ frameRows (split_obs_spatially demoCols (1/6) (15/100)).1,
          r ∉ frameRows (split_obs_spatially demoCols (1/6) (15/100)).2)
    ∧ (((split_obs_per_species_frequency demoObs (1/2) takeSampler).1
        ++ (split_obs_per_species_frequency demoObs (1/2) takeSampler).2.1).Perm
          demoObs
      ∧ ∀ o ∈ (split_obs_per_species_frequency demoObs (1/2) takeSampler).1,
          o ∉ (split_obs_per_species_frequency demoObs (1/2) takeSampler).2.1) :=
  ⟨C1_split_partition.1 demoCols [0, 1] [0, 5] (1/6) (15/100) (by decide) (by decide),
   C1_split_partition.2 demoObs (1/2) takeSampler takeSampler_valid
     (by norm_num) (by decide)⟩

/-- Counterexample for C1 as frozen: on a csv whose `lat` column precedes
`lon`, the union of the spatial split's outputs is not the input record set
(the coordinate values are swapped in the outputs). -/
theorem C1_split_partition_counterexample :
    ¬ (frameRows (split_obs_spatially latFirstCols (1/6) (15/100)).1
      ++ frameRows (split_obs_spatially latFirstCols (1/6) (15/100)).2).Perm
      (rowsOfCols latFirstCols) := by decide

/-- C2 (corrected): whenever a class qualifies for validation
(`round(count * val_ratio) >= 1`), the frequency split places exactly
`round(count * val_ratio)` of its records into the validation set, where
`round` is Python's round-half-to-even. (The frozen claim's example is
wrong: with `val_ratio = 0.1`, a class of 25 occurrences yields
`round(2.5) = 2` validation records, not 3 — see the counterexample.) -/
theorem C2_val_count (l : List Obs) (valRatio : ℚ)
    (sample : List Obs → ℕ → List Obs) (s : ℕ)
    (hs : ValidSampler sample) (hr1 : valRatio ≤ 1)
    (h1 : 1 ≤ roundHalfEven (((sliceOf l s).length : ℚ) * valRatio)) :
    (((split_obs_per_species_frequency l valRatio sample).2.1).filter
       (fun o => decide (o.speciesId = s))).length
      = (roundHalfEven (((sliceOf l s).length : ℚ) * valRatio)).toNat := by
  have hmem : s ∈ l.map Obs.speciesId := by
    by_contra hns
    have hslice : sliceOf l s = [] := by
      unfold sliceOf
      rw [List.filter_eq_nil_iff]
      intro o ho
      simp only [decide_eq_true_eq]
      intro hcontra
      exact hns (List.mem_map.mpr ⟨o, ho, hcontra⟩)
    rw [hslice] at h1
    have hz : ((([] : List Obs).length : ℚ)) * valRatio = 0 := by simp
    rw [hz] at h1
    have h0 : roundHalfEven 0 = 0 := by norm_num [roundHalfEven]
    omega
  have hpair := nClsVal_complete l valRatio hmem
  have hval : (split_obs_per_species_frequency l valRatio sample).2.1
      = valSplit l (nClsVal l valRatio) sample := rfl
  rw [hval, filter_valSplit_eq hs hr1 hpair]
  unfold valPiece
  simp only [h1, if_pos]
  exact (hs _ _ (valPiece_n_le hr1 hpair)).1

/-- Witness for C2 at a concrete input: the 25-record single-species table
with ratio one tenth. -/
theorem C2_val_count_witness :
    (((split_obs_per_species_frequency l25 (1/10) takeSampler).2.1).filter
       (fun o => decide (o.speciesId = 7))).length
      = (roundHalfEven (((sliceOf l25 7).length : ℚ) * (1/10))).toNat :=
  C2_val_count l25 (1/10) takeSampler 7 takeSampler_valid (by norm_num) (by decide)

/-- Counterexample for C2 as frozen: with `val_ratio = 0.1` a class with 25
occurrences yields 2 validation records, not the claimed
`round(25 * 0.1) = 3` (Python rounds 2.5 to 2). -/
theorem C2_val_count_counterexample :
    (((split_obs_per_species_frequency l25 (1/10) takeSampler).2.1).filter
        (fun o => decide (o.speciesId = 7))).length = 2
    ∧ ¬ (((split_obs_per_species_frequency l25 (1/10) takeSampler).2.1).filter
        (fun o => decide (o.speciesId = 7))).length = 3 := by decide

/-- C3 (corrected): a class contributes no validation records precisely when
its rounded count `round(count * val_ratio)` is below one — classes with
`count < 1/val_ratio` may still reach validation — and the reported
`indivisible_sid_n_rows` figure equals the sum of the rounded per-class
validation counts that are below `1/val_ratio`, not the total number of
records of excluded classes. -/
theorem C3_exclusion :
    (∀ (l : List Obs) (valRatio : ℚ) (sample : List Obs → ℕ → List Obs) (s : ℕ),
      ValidSampler sample → valRatio ≤ 1 →
      roundHalfEven (((sliceOf l s).length : ℚ) * valRatio) < 1 →
      (((split_obs_per_species_frequency l valRatio sample).2.1).filter
         (fun o => decide (o.speciesId = s))).length = 0)
    ∧ (∀ (l : List Obs) (valRatio : ℚ) (sample : List Obs → ℕ → List Obs),
      (split_obs_per_species_frequency l valRatio sample).2.2
        = (((uniqueCounts l).map
            (fun p => roundHalfEven ((p.2 : ℚ) * valRatio))).filter
            (fun (n : ℤ) => decide ((n : ℚ) < 1 / valRatio))).sum) := by
  constructor
  · intro l valRatio sample s hs hr1 hlt
    have hval : (split_obs_per_species_frequency l valRatio sample).2.1
        = valSplit l (nClsVal l valRatio) sample := rfl
    have hnone : ∀ n : ℤ, (s, n) ∈ nClsVal l valRatio → ¬ 1 ≤ n := by
      intro n hn
      have he := mem_nClsVal l valRatio hn
      omega
    rw [hval, filter_valSplit_nil hs hr1 hnone]
    rfl
  · intro l valRatio sample
    have h2 : (split_obs_per_species_frequency l valRatio sample).2.2
        = indivisibleRows l valRatio := rfl
    rw [h2]
    unfold indivisibleRows nClsVal
    have hp1 : ((sortDescByCount (uniqueCounts l)).map
        (fun p => (p.1, roundHalfEven ((p.2 : ℚ) * valRatio)))).Perm
        ((uniqueCounts l).map
          (fun p => (p.1, roundHalfEven ((p.2 : ℚ) * valRatio)))) :=
      (sortDescByCount_perm _).map _
    have hp2 := (hp1.filter
      (fun q => decide ((q.2 : ℚ) < 1 / valRatio))).map Prod.snd
    rw [List.Perm.sum_eq hp2, map_snd_filter_map]

/-- Witness for C3 at a concrete input: the 5-record single-species table
with ratio one tenth (its rounded validation count is `round(0.5) = 0`). -/
theorem C3_exclusion_witness :
    (((split_obs_per_species_frequency l5 (1/10) takeSampler).2.1).filter
        (fun o => decide (o.speciesId = 4))).length = 0
    ∧ (split_obs_per_species_frequency l5 (1/10) takeSampler).2.2
        = (((uniqueCounts l5).map
            (fun p => roundHalfEven ((p.2 : ℚ) * (1/10)))).filter
            (fun (n : ℤ) => decide ((n : ℚ) < 1 / (1/10)))).sum :=
  ⟨C3_exclusion.1 l5 (1/10) takeSampler 4 takeSampler_valid (by norm_num) (by decide),
   C3_exclusion.2 l5 (1/10) takeSampler⟩

/-- Counterexample for C3 as frozen: a class of 7 records with
`val_ratio = 0.1` has `7 < 1/0.1 = 10` occurrences, yet one of its records
reaches validation (`round(0.7) = 1`), and the reported excluded figure is
1, not the class's 7 records. -/
theorem C3_exclusion_counterexample :
    ((7 : ℚ) < 1 / ((1 : ℚ)/10))
    ∧ (((split_obs_per_species_frequency l7 (1/10) takeSampler).2.1).filter
        (fun o => decide (o.speciesId = 3))).length = 1
    ∧ (split_obs_per_species_frequency l7 (1/10) takeSampler).2.2 = 1
    ∧ ¬ ((((split_obs_per_species_frequency l7 (1/10) takeSampler).2.1).filter
        (fun o => decide (o.speciesId = 3))).length = 0
      ∧ (split_obs_per_species_frequency l7 (1/10) takeSampler).2.2 = 7) := by
  decide

instance (p : ℚ × ℚ) (b : BBox) : Decidable (onBoundary p b) := by
  unfold onBoundary
  infer_instance

/-- C4 (corrected): boundary-touching points are contained under the
`manual` method (non-strict inequalities); under the default `shapely`
method a polygon contains only interior points, so boundary points are
rejected — see the counterexample. -/
theorem C4_boundary_containment (p : ℚ × ℚ) (b : BBox) (h : onBoundary p b) :
    is_point_in_bbox p b .manual = true := by
  obtain ⟨_, h1, h2, h3, h4⟩ := h
  simp only [is_point_in_bbox, Bool.and_eq_true, decide_eq_true_eq, ge_iff_le]
  exact ⟨⟨⟨h1, h2⟩, h3⟩, h4⟩

/-- Witness for C4 at a concrete boundary point. -/
theorem C4_boundary_containment_witness :
    is_point_in_bbox (0, 1/2) (BBox.mk 0 0 1 1) .manual = true :=
  C4_boundary_containment (0, 1/2) (BBox.mk 0 0 1 1) (by decide)

/-- Counterexample for C4 as frozen: the corner `(0, 0)` lies on the
boundary of the box `[0, 0, 1, 1]`, yet the default (`shapely`) method
reports it as not contained. -/
theorem C4_boundary_containment_counterexample :
    onBoundary (0, 0) (BBox.mk 0 0 1 1)
    ∧ is_point_in_bbox (0, 0) (BBox.mk 0 0 1 1) .shapely = false := by
  decide

/-- C5 (corrected): the `manual` method returns true exactly when every
corner of box 1 lies within box 2's bounds inclusively; and for well-formed
boxes whose inner box has positive width and height, the `manual` method
agrees with the polygon-containment (`shapely`) method. (As frozen, the
agreement fails for degenerate inner boxes, whose polygon has empty
interior — see the counterexample.) -/
theorem C5_containment_equiv :
    (∀ b1 b2 : BBox,
      is_bbox_contained b1 b2 .manual = true ↔ cornersWithin b1 b2)
    ∧ (∀ b1 b2 : BBox, b1.wf → b2.wf → b1.nondeg →
      is_bbox_contained b1 b2 .manual = is_bbox_contained b1 b2 .shapely) := by
  constructor
  · intro b1 b2
    simp only [is_bbox_contained, Bool.and_eq_true, decide_eq_true_eq, ge_iff_le,
      cornersWithin, rectClosed, Set.mem_setOf_eq]
    constructor
    · rintro ⟨⟨⟨⟨⟨⟨⟨h1, h2⟩, h3⟩, h4⟩, h5⟩, h6⟩, h7⟩, h8⟩
      exact ⟨⟨h1, h2, h5, h6⟩, ⟨h1, h2, h7, h8⟩, ⟨h3, h4, h7, h8⟩, ⟨h3, h4, h5, h6⟩⟩
    · rintro ⟨⟨h1, h2, h5, h6⟩, _, ⟨h3, h4, h7, h8⟩, _⟩
      exact ⟨⟨⟨⟨⟨⟨⟨h1, h2⟩, h3⟩, h4⟩, h5⟩, h6⟩, h7⟩, h8⟩
  · intro b1 b2 hw1 hw2 hnd
    obtain ⟨hna, hnb⟩ := hnd
    rw [Bool.eq_iff_iff]
    simp only [is_bbox_contained, Bool.and_eq_true, decide_eq_true_eq, ge_iff_le]
    constructor
    · rintro ⟨⟨⟨⟨⟨⟨⟨h1, h2⟩, h3⟩, h4⟩, h5⟩, h6⟩, h7⟩, h8⟩
      exact ⟨⟨⟨⟨⟨h1, h4⟩, h5⟩, h8⟩, hna⟩, hnb⟩
    · rintro ⟨⟨⟨⟨⟨g1, g2⟩, g3⟩, g4⟩, g5⟩, g6⟩
      refine ⟨⟨⟨⟨⟨⟨⟨g1, by linarith⟩, by linarith⟩, g2⟩, g3⟩, by linarith⟩,
        by linarith⟩, g4⟩

/-- Witness for C5 at a concrete pair of well-formed non-degenerate boxes. -/
theorem C5_containment_equiv_witness :
    (is_bbox_contained (BBox.mk 0 0 1 1) (BBox.mk (-1) (-1) 2 2) .manual = true
      ↔ cornersWithin (BBox.mk 0 0 1 1) (BBox.mk (-1) (-1) 2 2))
    ∧ is_bbox_contained (BBox.mk 0 0 1 1) (BBox.mk (-1) (-1) 2 2) .manual
      = is_bbox_contained (BBox.mk 0 0 1 1) (BBox.mk (-1) (-1) 2 2) .shapely :=
  ⟨C5_containment_equiv.1 (BBox.mk 0 0 1 1) (BBox.mk (-1) (-1) 2 2),
   C5_containment_equiv.2 (BBox.mk 0 0 1 1) (BBox.mk (-1) (-1) 2 2)
     (by constructor <;> norm_num) (by constructor <;> norm_num)
     (by constructor <;> norm_num)⟩

/-- Counterexample for C5 as frozen: the degenerate box `[0, 0, 0, 0]` (a
point) has all corners inside `[-1, -1, 1, 1]` and the direct
coordinate-comparison method accepts it, but the polygon-containment method
rejects it (a zero-area polygon has no interior), so the two methods
disagree and the claimed equivalence with the corner criterion fails for
the `shapely` formulation. -/
theorem C5_containment_equiv_counterexample :
    cornersWithin (BBox.mk 0 0 0 0) (BBox.mk (-1) (-1) 1 1)
    ∧ is_bbox_contained (BBox.mk 0 0 0 0) (BBox.mk (-1) (-1) 1 1) .manual = true
    ∧ is_bbox_contained (BBox.mk 0 0 0 0) (BBox.mk (-1) (-1) 1 1) .shapely
      = false := by
  refine ⟨⟨⟨?_, ?_, ?_, ?_⟩, ⟨?_, ?_, ?_, ?_⟩, ⟨?_, ?_, ?_, ?_⟩, ⟨?_, ?_, ?_, ?_⟩⟩,
    by decide, by decide⟩ <;> norm_num

/-- C6 (confirmed): the one-hot encoding has the vocabulary's length, its
entry at every position `i` is `1.0` exactly when `vocabulary[i]` is among
the predicted labels and `0.0` otherwise, and for a single label present in
a duplicate-free vocabulary the output carries a single `1.0`, at the
label's vocabulary index. -/
theorem C6_one_hot (labels_predict labels_target : List ℤ) :
    (to_one_hot_encoding labels_predict labels_target).length
      = labels_target.length
    ∧ (∀ i : ℕ, i < labels_target.length →
        (to_one_hot_encoding labels_predict labels_target).getD i 0
          = if labels_target.getD i 0 ∈ labels_predict then 1 else 0)
    ∧ (∀ label : ℤ, labels_target.Nodup → label ∈ labels_target →
        (to_one_hot_encoding [label] labels_target).getD
            (labels_target.indexOf label) 0 = 1
        ∧ ∀ j : ℕ, j < labels_target.length → j ≠ labels_target.indexOf label →
            (to_one_hot_encoding [label] labels_target).getD j 0 = 0) := by
  refine ⟨by simp [to_one_hot_encoding], ?_, ?_⟩
  · intro i hi
    unfold to_one_hot_encoding
    rw [getD_map_lt 0 0 hi]
  · intro label hnd hmem
    have hidx : labels_target.indexOf label < labels_target.length :=
      List.indexOf_lt_length.mpr hmem
    constructor
    · unfold to_one_hot_encoding
      rw [getD_map_lt 0 0 hidx]
      have hlab : labels_target.getD (labels_target.indexOf label) 0 = label := by
        rw [List.getD_eq_getElem?_getD, List.getElem?_eq_getElem hidx]
        simp [List.getElem_indexOf]
      rw [hlab]
      simp
    · intro j hj hne
      unfold to_one_hot_encoding
      rw [getD_map_lt 0 0 hj]
      have hgd : labels_target.getD j 0 = labels_target[j] := by
        rw [List.getD_eq_getElem?_getD, List.getElem?_eq_getElem hj]
        rfl
      rw [hgd]
      have hnotin : labels_target[j] ∉ [label] := by
        simp only [List.mem_singleton]
        intro hcontra
        have hL : labels_target[labels_target.indexOf label] = label :=
          List.getElem_indexOf hidx
        have hjj : labels_target[j]
            = labels_target[labels_target.indexOf label] := by rw [hcontra, hL]
        exact hne ((hnd.getElem_inj_iff).mp hjj)
      have hne2 : ¬ labels_target[j] = label := by simpa using hnotin
      simp [hne2]

/-- Witness for C6 at a concrete vocabulary and label. -/
theorem C6_one_hot_witness :
    to_one_hot_encoding [(5 : ℤ)] [3, 5, 9] = [0, 1, 0]
    ∧ (to_one_hot_encoding [(5 : ℤ)] [3, 5, 9]).getD
        (([3, 5, 9] : List ℤ).indexOf 5) 0 = 1 :=
  ⟨by decide, ((C6_one_hot [5] [3, 5, 9]).2.2 5 (by decide) (by decide)).1⟩

/-- C7 (confirmed): for extension names given without a leading dot, a path
is returned by the recursive file search exactly when it joins a walked
directory with one of its filenames whose dot-separated terminal extension
is in the extension set (case-sensitively — matching is literal character
equality) and whose part before the extension ends in a word of the suffix
pattern's language. -/
theorem C7_find_files (walk : List (List Char × List (List Char)))
    (S : List Char → Bool) (args : List (List Char)) (p : List Char)
    (hd : ∀ e ∈ args, e.head? ≠ some '.') :
    p ∈ get_files_path_recursively walk S args ↔
      ∃ d ∈ walk, ∃ f ∈ d.2,
        p = d.1 ++ '/' :: f ∧ specFileMatch S args f := by
  rw [mem_get_files, stripDot_map_id hd]
  constructor
  · rintro ⟨d, hdw, f, hf, hm, rfl⟩
    exact ⟨d, hdw, f, hf, rfl, (fileMatches_iff_spec S args f).mp hm⟩
  · rintro ⟨d, hdw, f, hf, rfl, hm⟩
    exact ⟨d, hdw, f, hf, (fileMatches_iff_spec S args f).mpr hm, rfl⟩

/-- Witness for C7: over the tree `root/a.csv`, `root/b.txt`,
`root/sub/c.csv`, with extension set `csv` and the empty suffix pattern,
the search returns exactly `root/a.csv` and `root/sub/c.csv`. -/
theorem C7_find_files_witness :
    get_files_path_recursively demoWalk emptySuffix [String.toList "csv"]
      = [String.toList "root/a.csv", String.toList "root/sub/c.csv"]
    ∧ (∃ d ∈ demoWalk, ∃ f ∈ d.2,
        String.toList "root/sub/c.csv" = d.1 ++ '/' :: f
        ∧ specFileMatch emptySuffix [String.toList "csv"] f) :=
  ⟨by decide,
   (C7_find_files demoWalk emptySuffix [String.toList "csv"]
     (String.toList "root/sub/c.csv") (by decide)).mp (by decide)⟩

/-- C8 (corrected): for a root that exists nowhere in the filesystem, the
walk is empty (`os.walk` suppresses the error with its default
`onerror=None`) and the search returns the empty list — no `PathNotFound`
error is raised. -/
theorem C8_missing_root (fs : List (List Char × List (List Char)))
    (root : List Char) (S : List Char → Bool) (args : List (List Char))
    (h : ∀ e ∈ fs, root.isPrefixOf e.1 = false) :
    get_files_path_recursively (osWalk fs root) S args = [] := by
  have hw : osWalk fs root = [] := by
    unfold osWalk
    rw [List.filter_eq_nil_iff]
    intro e he
    simp [h e he]
  rw [hw]
  rfl

/-- Witness for C8 at a concrete filesystem and missing root. -/
theorem C8_missing_root_witness :
    get_files_path_recursively (osWalk demoWalk (String.toList "absent"))
      emptySuffix [String.toList "txt"] = [] :=
  C8_missing_root demoWalk (String.toList "absent") emptySuffix
    [String.toList "txt"] (by decide)

/-- Counterexample for C8 as frozen: on a filesystem holding only the
`root` tree, searching under the nonexistent root `missing` returns the
empty list as an ordinary result instead of failing. -/
theorem C8_missing_root_counterexample :
    get_files_path_recursively (osWalk demoWalk (String.toList "missing"))
      emptySuffix [String.toList "csv"] = [] := by decide

/-- C9 (code bug): on a csv whose `lat` column precedes `lon` (one record
with `lon = 1`, `lat = 2`), the spatial split writes the first coordinate
column's values into the output `lon` column, so the produced record has
`lon = 2` and `lat = 1` — the original column values are not retained. -/
theorem C9_lonlat_swap :
    rowsOfCols latFirstCols = [Row.mk 1 2 [("sp", 7)]]
    ∧ frameRows (split_obs_spatially latFirstCols (1/6) (15/100)).1 = []
    ∧ frameRows (split_obs_spatially latFirstCols (1/6) (15/100)).2
        = [Row.mk 2 1 [("sp", 7)]] := by decide

/-- C10 (confirmed): an extension given with a leading dot is treated
identically to the same extension without it — exactly one leading dot is
stripped before matching. -/
theorem C10_dot_insensitive (walk : List (List Char × List (List Char)))
    (S : List Char → Bool) (e : List Char) (h : e.head? ≠ some '.') :
    get_files_path_recursively walk S ['.' :: e]
      = get_files_path_recursively walk S [e] := by
  unfold get_files_path_recursively
  have h1 : ['.' :: e].map stripDot = [e] := by simp [stripDot]
  have h2 : [e].map stripDot = [e] := by simp [stripDot, h]
  rw [h1, h2]

/-- Witness for C10: searching for `.csv` equals searching for `csv` on the
demo tree. -/
theorem C10_dot_insensitive_witness :
    get_files_path_recursively demoWalk emptySuffix ['.' :: String.toList "csv"]
      = get_files_path_recursively demoWalk emptySuffix [String.toList "csv"] :=
  C10_dot_insensitive demoWalk emptySuffix (String.toList "csv") (by decide)
